import Mathlib

/-!
Verification development for the Smart-Task-Analyzer service.

The Python source (`src/main.py`, `src/database.py`) is shallowly embedded:

* calendar dates are embedded as integers counting days, so
  `days_until_due = due_date - today` is plain `Int` subtraction;
* Python floats that only ever hold small decimal literals and results of
  `+`, `*`, `min`, `max` on them are embedded as exact rationals `ℚ`;
* the SQLAlchemy session is embedded as the list of persisted rows;
* raised `HTTPException`s are embedded as `Except` / sum-type results.
-/

namespace STA

/-- `PriorityWeights` (src/main.py, lines 32-36) with its default field values. -/
structure PriorityWeights where
  urgency : ℚ := 0.4
  importance : ℚ := 0.3
  effort : ℚ := 0.2
  dependencies : ℚ := 0.1
deriving DecidableEq

/-- The default weight configuration used by `PriorityCalculator.__init__`
when no weights are supplied. -/
def defaultWeights : PriorityWeights := {}

/-- A task as the scoring engine sees it (`Task` / `TaskBase`, src/main.py
lines 38-57, and the persisted `TaskDB` row of src/database.py with its
dependency edges flattened to the ids of the related rows).  The derived
`score`/`explanation` fields are carried separately by the endpoints that
compute them. -/
structure Task where
  id : String
  title : String
  due_date : Int
  estimated_hours : ℚ
  importance : Int
  dependencies : List String
deriving DecidableEq

/-- `PriorityCalculator._calculate_urgency_score` (src/main.py lines 91-119),
with `days_until_due = due_date - today`. -/
def calculate_urgency_score (today : Int) (due_date : Int) : ℚ :=
  let days_until_due := due_date - today
  if days_until_due < 0 then 100
  else if days_until_due = 0 then 90
  else if days_until_due ≤ 1 then 80
  else if days_until_due ≤ 3 then 70
  else if days_until_due ≤ 7 then 50
  else if days_until_due ≤ 14 then 30
  else if days_until_due ≤ 30 then 20
  else 10

/-- The importance sub-score, inlined in `calculate_score` (src/main.py line
77): `(task.importance / 10.0) * 100`. -/
def importance_sub_score (importance : Int) : ℚ :=
  ((importance : ℚ) / 10) * 100

/-- `PriorityCalculator._calculate_effort_score` (src/main.py lines 121-132). -/
def calculate_effort_score (estimated_hours : ℚ) : ℚ :=
  if estimated_hours ≤ 1 then 100
  else if estimated_hours ≤ 4 then 80
  else if estimated_hours ≤ 8 then 60
  else if estimated_hours ≤ 16 then 40
  else 20

/-- The fan-in count `sum(1 for t in all_tasks.values() if task.id in
t.dependencies)` (src/main.py lines 140 and 177).  `all_tasks` is a dict
keyed by id; we embed its value view as a list. -/
def dependent_count (task : Task) (all_tasks : List Task) : Nat :=
  all_tasks.countP (fun t => decide (task.id ∈ t.dependencies))

/-- `PriorityCalculator._calculate_dependency_score` (src/main.py lines
134-144): gated to 0 when the task has no declared dependencies. -/
def calculate_dependency_score (task : Task) (all_tasks : List Task) : ℚ :=
  if task.dependencies = [] then 0
  else if 0 < dependent_count task all_tasks then 100
  else 0

/-- Python's builtin `min` on two arguments: the first argument when it
compares less-or-equal, the second otherwise. -/
def pyMin (a b : ℚ) : ℚ := if a ≤ b then a else b

/-- Python's builtin `max` on two arguments. -/
def pyMax (a b : ℚ) : ℚ := if b ≤ a then a else b

/-- `PriorityCalculator.calculate_score` (src/main.py lines 73-89): weighted
combination of the four sub-scores, clamped into `[0, 100]` by
`min(max(score, 0), 100)`. -/
def calculate_score (w : PriorityWeights) (today : Int) (task : Task)
    (all_tasks : List Task) : ℚ :=
  let urgency_score := calculate_urgency_score today task.due_date
  let importance_score := importance_sub_score task.importance
  let effort_score := calculate_effort_score task.estimated_hours
  let dependency_score := calculate_dependency_score task all_tasks
  let score := w.urgency * urgency_score + w.importance * importance_score +
    w.effort * effort_score + w.dependencies * dependency_score
  pyMin (pyMax score 0) 100

/-- `PriorityCalculator.generate_explanation` (src/main.py lines 146-181):
the ordered list of fragments, comma-joined, with a fixed sentinel when no
fragment triggers. -/
def generate_explanation (today : Int) (task : Task) (all_tasks : List Task) :
    String :=
  let days_until_due := task.due_date - today
  let urgencyFrag : List String :=
    if days_until_due < 0 then
      ["⚠️ Past due by " ++ toString (-days_until_due) ++ " days"]
    else if days_until_due = 0 then ["⏰ Due today"]
    else if days_until_due ≤ 3 then
      ["⏳ Due in " ++ toString days_until_due ++ " days"]
    else []
  let importanceFrag : List String :=
    if 8 ≤ task.importance then ["⭐ High importance"]
    else if task.importance ≤ 3 then ["🔽 Low importance"]
    else []
  let effortFrag : List String :=
    if task.estimated_hours ≤ 2 then ["⚡ Quick task"]
    else if 8 ≤ task.estimated_hours then ["🐢 Time-consuming"]
    else []
  let dependsFrag : List String :=
    if task.dependencies ≠ [] then
      ["🔗 Depends on " ++ toString task.dependencies.length ++ " tasks"]
    else []
  let dc := dependent_count task all_tasks
  let blocksFrag : List String :=
    if 0 < dc then
      ["🔑 Blocks " ++ toString dc ++ " other task" ++
        (if 1 < dc then "s" else "")]
    else []
  let explanations :=
    urgencyFrag ++ importanceFrag ++ effortFrag ++ dependsFrag ++ blocksFrag
  if explanations = [] then "No specific factors identified"
  else String.intercalate ", " explanations

/-- The urgency table of spec §4.2, written exactly as the spec lists the
rows, for comparison with `calculate_urgency_score`. -/
def specUrgencyTable (days_until_due : Int) : ℚ :=
  if days_until_due < 0 then 100
  else if days_until_due = 0 then 90
  else if days_until_due = 1 then 80
  else if 2 ≤ days_until_due ∧ days_until_due ≤ 3 then 70
  else if 4 ≤ days_until_due ∧ days_until_due ≤ 7 then 50
  else if 8 ≤ days_until_due ∧ days_until_due ≤ 14 then 30
  else if 15 ≤ days_until_due ∧ days_until_due ≤ 30 then 20
  else 10

/-! ## The dependency-graph validator (`validate_tasks`, src/main.py lines 183-223)

The Python function builds `graph : dict` mapping each task id to its
dependency ids, then runs a recursive depth-first search per task with a
`visited` set (reset for every top-level task) and a `rec_stack` set.  The
recursion is embedded with an explicit fuel parameter; `validate_tasks`
below instantiates the fuel with a bound proved sufficient
(`validate_tasks_isSome`), so the `none` (out-of-fuel) branch never fires.

Python's `set(deps)` iterates in an unspecified order; the embedding fixes
declaration order.  Every theorem below is insensitive to that order except
for which concrete missing-dependency pair is reported, and the concrete
inputs used in those theorems have a single candidate pair. -/

/-- The three possible outcomes of `validate_tasks`: success, the
missing-dependency `HTTPException` of line 203 (carrying `node` and
`neighbor`), or the circular-dependency `HTTPException` of line 220
(carrying the outer loop's `task.id`). -/
inductive VResult where
  | ok : VResult
  | missingDep (node neighbor : String) : VResult
  | circular (taskId : String) : VResult
deriving DecidableEq

/-- The local state of `validate_tasks`: the adjacency dict `graph` (as an
association list in insertion order), the id set `task_ids` of the tasks
under validation, and the ids present in the database (the
`db.query(TaskDB).filter(TaskDB.id == neighbor)` existence check). -/
structure VCtx where
  graph : List (String × List String)
  task_ids : List String
  dbIds : List String

/-- `graph.get(node, set())`: the dependency list bound to `node`.  A Python
dict keeps the last binding when a key is assigned twice, hence the lookup
on the reversed list. -/
def depsOf (graph : List (String × List String)) (node : String) :
    List String :=
  match graph.reverse.find? (fun p => p.1 == node) with
  | some p => p.2
  | none => []

/-- Result of one `has_cycle` call: `none` when out of fuel, an `Except`
carrying either the missing-dependency pair raised on line 203 or the pair
(cycle-found flag, visited set after the call). -/
abbrev DfsOut := Option (Except (String × String) (Bool × List String))

mutual
/-- `has_cycle(node, visited, rec_stack)` (src/main.py lines 195-214): add
`node` to both sets, then walk its neighbours. -/
def dfsNode (c : VCtx) : Nat → String → List String → List String → DfsOut
  | 0, _, _, _ => none
  | fuel + 1, node, visited, recStack =>
      dfsDeps c fuel node (depsOf c.graph node) (node :: visited)
        (node :: recStack)
termination_by fuel _ _ _ => (fuel, 0)

/-- The `for neighbor in graph.get(node, set())` loop body of `has_cycle`:
check existence of the neighbour, recurse when unvisited, report a cycle
when the neighbour is on the recursion stack. -/
def dfsDeps (c : VCtx) :
    Nat → String → List String → List String → List String → DfsOut
  | _, _, [], visited, _ => some (.ok (false, visited))
  | fuel, node, nbr :: rest, visited, recStack =>
      if nbr ∉ c.task_ids ∧ nbr ∉ c.dbIds then
        some (.error (node, nbr))
      else if nbr ∉ visited then
        match dfsNode c fuel nbr visited recStack with
        | none => none
        | some (.error e) => some (.error e)
        | some (.ok (true, v')) => some (.ok (true, v'))
        | some (.ok (false, v')) => dfsDeps c fuel node rest v' recStack
      else if nbr ∈ recStack then
        some (.ok (true, visited))
      else
        dfsDeps c fuel node rest visited recStack
termination_by fuel _ nbrs _ _ => (fuel, nbrs.length + 1)
end

/-- The outer `for task in tasks` loop of `validate_tasks` (lines 216-223):
a fresh `visited` set per task, raising on the first cycle or missing
dependency found. -/
def validateLoop (c : VCtx) (fuel : Nat) : List String → Option VResult
  | [] => some .ok
  | tid :: rest =>
      match dfsNode c fuel tid [] [] with
      | none => none
      | some (.error (n, m)) => some (.missingDep n m)
      | some (.ok (true, _)) => some (.circular tid)
      | some (.ok (false, _)) => validateLoop c fuel rest

/-- Every id occurring in the adjacency structure (keys and dependency
targets); the DFS can only ever visit these. -/
def nodesList (graph : List (String × List String)) : List String :=
  graph.map Prod.fst ++ graph.flatMap Prod.snd

/-- `validate_tasks(db, tasks)` (src/main.py lines 183-223) over the
association list `(task.id, task.dependencies)` built from `tasks`, with
`task_ids = {task.id for task in tasks}` and the database projected to its
id set.  The fuel `|nodes| + 1` is proved sufficient in
`validate_tasks_isSome`. -/
def validate_tasks (dbIds : List String)
    (graph : List (String × List String)) : Option VResult :=
  let c : VCtx := ⟨graph, graph.map Prod.fst, dbIds⟩
  validateLoop c ((nodesList graph).dedup.length + 1) (graph.map Prod.fst)

/-- Total wrapper of `validate_tasks`; the default is dead code by
`validate_tasks_isSome`. -/
def validateTasksRun (dbIds : List String)
    (graph : List (String × List String)) : VResult :=
  (validate_tasks dbIds graph).getD .ok

/-! ## Graph-theoretic vocabulary for the validator's specification -/

/-- The dependency edge relation of an adjacency structure: `a` depends on
`b`. -/
def EdgeG (graph : List (String × List String)) (a b : String) : Prop :=
  b ∈ depsOf graph a

/-- `b` is reachable from `a` along dependency edges. -/
def ReachG (graph : List (String × List String)) (a b : String) : Prop :=
  Relation.ReflTransGen (EdgeG graph) a b

/-- A directed cycle passes through `a`. -/
def CycAt (graph : List (String × List String)) (a : String) : Prop :=
  Relation.TransGen (EdgeG graph) a a

/-- The dependency graph contains a directed cycle. -/
def HasCycle (graph : List (String × List String)) : Prop :=
  ∃ a, CycAt graph a

/-- Some cycle is reachable from `r` (including cycles through `r`). -/
def CycleReachableFrom (graph : List (String × List String)) (r : String) :
    Prop :=
  ∃ a, ReachG graph r a ∧ CycAt graph a

/-! ## Endpoints -/

/-- `create_task` (src/main.py lines 240-266).  The loop on lines 253-256
appends only those dependency ids that resolve to an existing database row
(`if dep_task:`), silently skipping the rest; the filtered task is then
validated and persisted.  The generated uuid is passed in as `newId`. -/
def create_task (db : List Task) (newId : String) (task : Task) :
    Except VResult (List Task × Task) :=
  let deps := task.dependencies.filter
    (fun dep_id => (db.find? (fun r => r.id == dep_id)).isSome)
  let db_task : Task :=
    { id := newId, title := task.title, due_date := task.due_date,
      estimated_hours := task.estimated_hours, importance := task.importance,
      dependencies := deps }
  match validateTasksRun (db.map (·.id)) [(db_task.id, db_task.dependencies)] with
  | .ok => .ok (db ++ [db_task], db_task)
  | e => .error e

/-- The outcome of the `DELETE /api/tasks/{task_id}` endpoint. -/
inductive DeleteOutcome where
  | notFound : DeleteOutcome
  | conflict (dependent_titles : List String) (total_dependents : Nat) :
      DeleteOutcome
  | deleted (db : List Task) : DeleteOutcome
deriving DecidableEq

/-- The membership test `task_id in (t.dependencies or [])` on src/main.py
line 383.  In Python, `t.dependencies` is the relationship's list of
`TaskDB` objects, so `in` compares the string `task_id` against `TaskDB`
instances with default identity equality: the comparison is `False` for
every element.  The embedding keeps the dependency rows as their ids but
reproduces that cross-type comparison. -/
def pyStrEqTaskRow (_task_id : String) (_row_id : String) : Bool := false

/-- `delete_task` (src/main.py lines 369-403): 404 when absent, a
400 conflict carrying the first three dependent titles and the dependent
count when `dependent_tasks` is non-empty, otherwise delete the row. -/
def delete_task (db : List Task) (task_id : String) : DeleteOutcome :=
  match db.find? (fun t => t.id == task_id) with
  | none => .notFound
  | some _ =>
      let dependent_tasks :=
        db.filter (fun t => t.dependencies.any (pyStrEqTaskRow task_id))
      if dependent_tasks ≠ [] then
        .conflict ((dependent_tasks.take 3).map (·.title))
          dependent_tasks.length
      else
        .deleted (db.eraseP (fun t => t.id == task_id))

/-- A task with the `score` and `explanation` fields set by a scoring pass
(src/main.py lines 314-316). -/
structure ScoredTask where
  task : Task
  score : ℚ
  explanation : String
deriving DecidableEq

/-- Insert `x` into a list sorted by descending score, after every element
whose score is strictly greater: the stable insertion step. -/
def insertDesc (x : ScoredTask) : List ScoredTask → List ScoredTask
  | [] => [x]
  | y :: ys => if x.score < y.score then y :: insertDesc x ys else x :: y :: ys

/-- `sorted(tasks, key=lambda x: x.score or 0, reverse=True)` (src/main.py
line 327).  Python's sort is stable and `reverse=True` keeps ties in input
order; any stable descending sort computes the same list, and this
insertion sort is one. -/
def sortDesc : List ScoredTask → List ScoredTask
  | [] => []
  | x :: xs => insertDesc x (sortDesc xs)

/-- The batch that gets scored by `analyze_tasks` (src/main.py lines
291-294): the request tasks, or every persisted task when the request list
is empty. -/
def analyzeBatch (db reqTasks : List Task) : List Task :=
  if reqTasks.isEmpty then db else reqTasks

/-- `all_tasks` (src/main.py lines 300-305): the batch merged with the
persisted tasks not already present, keyed by id (batch tasks take
precedence), in dict insertion order. -/
def analyzeContext (db reqTasks : List Task) : List Task :=
  let tasks := analyzeBatch db reqTasks
  tasks ++ db.filter (fun d => ¬ tasks.any (fun t => t.id == d.id))

/-- The adjacency structure handed to `validate_tasks` by `analyze_tasks`
(src/main.py lines 189-193 applied to `all_tasks.values()`). -/
def analyzeGraph (db reqTasks : List Task) : List (String × List String) :=
  (analyzeContext db reqTasks).map (fun t => (t.id, t.dependencies))

/-- `analyze_tasks` (src/main.py lines 282-333): assemble the context,
validate it, score and explain every batch task against the full context,
and return them sorted by score descending together with the strategy
string.  The write-back of scores into matching database rows (lines
318-324) does not affect the response and is outside the embedding. -/
def analyze_tasks (today : Int) (db reqTasks : List Task)
    (weights : Option PriorityWeights) :
    Except VResult (List ScoredTask × String) :=
  let tasks := analyzeBatch db reqTasks
  if tasks.isEmpty then .ok ([], "default")
  else
    let all_tasks := analyzeContext db reqTasks
    match validateTasksRun (db.map (·.id)) (analyzeGraph db reqTasks) with
    | .ok =>
        let calculator := weights.getD defaultWeights
        let scored := tasks.map (fun t =>
          ⟨t, calculate_score calculator today t all_tasks,
            generate_explanation today t all_tasks⟩)
        .ok (sortDesc scored,
          if weights.isSome then "custom" else "default")
    | e => .error e

/-- All dependency ids of the validation context resolve, either inside the
validated set or in the database. -/
def AllPresent (c : VCtx) : Prop :=
  ∀ n d, d ∈ depsOf c.graph n → d ∈ c.task_ids ∨ d ∈ c.dbIds

/-- The black-node invariant for a visited set `v` and recursion stack `r`:
dependencies of black nodes are black, and black nodes lie on no cycle. -/
def BlackOK (g : List (String × List String)) (v r : List String) : Prop :=
  (∀ u ∈ v, u ∉ r → ∀ w ∈ depsOf g u, w ∈ v ∧ w ∉ r) ∧
  (∀ u ∈ v, u ∉ r → ¬ CycAt g u)

/-! ## Concrete instances used by counterexamples and witnesses -/

/-- Task A of end-to-end scenario 2 (spec §8; also
tests/test_priority_calculator.py::test_priority_calculation_dependencies):
due tomorrow relative to day 0, importance 5, 2 hours, no dependencies. -/
def taskA2 : Task := ⟨"5", "Task A", 1, 2, 5, []⟩

/-- Task B of end-to-end scenario 2: identical to A except for its id. -/
def taskB2 : Task := ⟨"6", "Task B", 1, 2, 5, []⟩

/-- Task C of end-to-end scenario 2: same date/importance/hours, depending
on both A and B. -/
def taskC2 : Task := ⟨"7", "Task C (depends on A and B)", 1, 2, 5, ["5", "6"]⟩

/-- The evaluation context of scenario 2. -/
def ctx2 : List Task := [taskA2, taskB2, taskC2]

/-- A task that lists itself as a dependency, in an otherwise empty
context. -/
def selfDepTask : Task := ⟨"t", "Self", 0, 1, 5, ["t"]⟩

/-- Persisted row "a" with no dependencies. -/
def rowA : Task := ⟨"a", "Task a", 0, 1, 5, []⟩

/-- Persisted row "b" depending on `rowA`. -/
def rowB : Task := ⟨"b", "Task b", 0, 1, 5, ["a"]⟩

/-! ## Claim theorems -/

/-- C1: for every weight configuration (negative weights and weights above
one included), every task, every context, and every value of `today`, the
final score returned by `PriorityCalculator.calculate_score` lies between 0
and 100 inclusive. -/
theorem C1_calculate_score_bounded (w : PriorityWeights) (today : Int)
    (task : Task) (all_tasks : List Task) :
    0 ≤ calculate_score w today task all_tasks ∧
      calculate_score w today task all_tasks ≤ 100 := by
  simp only [calculate_score, pyMin, pyMax]
  split_ifs <;> constructor <;> linarith

/-- C1 witness: the bound instantiated at a concrete task, context, and a
weight configuration with a negative and a greater-than-one entry. -/
theorem C1_calculate_score_bounded_witness :
    0 ≤ calculate_score ⟨2, -3, 0.5, 1.5⟩ 0 taskA2 ctx2 ∧
      calculate_score ⟨2, -3, 0.5, 1.5⟩ 0 taskA2 ctx2 ≤ 100 :=
  C1_calculate_score_bounded ⟨2, -3, 0.5, 1.5⟩ 0 taskA2 ctx2

/-- C6: the urgency sub-score agrees with the spec table of §4.2 for every
integer number of days until due, inclusive boundaries and all. -/
theorem C6_urgency_matches_spec_table (today due_date : Int) :
    calculate_urgency_score today due_date =
      specUrgencyTable (due_date - today) := by
  simp only [calculate_urgency_score, specUrgencyTable]
  split_ifs <;> first | rfl | omega

set_option maxHeartbeats 1000000 in
/-- C8: each sub-score is monotone in its input: a smaller due date (hence
fewer days until due) never decreases urgency, larger importance never
decreases the importance sub-score, and more estimated hours never
increases the effort sub-score. -/
theorem C8_sub_scores_monotone :
    (∀ (today d₁ d₂ : Int), d₁ ≤ d₂ →
        calculate_urgency_score today d₂ ≤ calculate_urgency_score today d₁) ∧
    (∀ i₁ i₂ : Int, i₁ ≤ i₂ →
        importance_sub_score i₁ ≤ importance_sub_score i₂) ∧
    (∀ h₁ h₂ : ℚ, h₁ ≤ h₂ →
        calculate_effort_score h₂ ≤ calculate_effort_score h₁) := by
  refine ⟨fun today d₁ d₂ h => ?_, fun i₁ i₂ h => ?_, fun h₁ h₂ h => ?_⟩
  · simp only [calculate_urgency_score]
    split_ifs <;> first | omega | norm_num
  · have hc : (i₁ : ℚ) ≤ (i₂ : ℚ) := by exact_mod_cast h
    simp only [importance_sub_score]
    linarith
  · simp only [calculate_effort_score]
    split_ifs <;> linarith

/-- C8 witness: the three monotonicity statements instantiated at concrete
inputs crossing table boundaries. -/
theorem C8_sub_scores_monotone_witness :
    calculate_urgency_score 0 8 ≤ calculate_urgency_score 0 3 ∧
      importance_sub_score 2 ≤ importance_sub_score 9 ∧
      calculate_effort_score 5 ≤ calculate_effort_score 1 :=
  ⟨C8_sub_scores_monotone.1 0 3 8 (by norm_num),
   C8_sub_scores_monotone.2.1 2 9 (by norm_num),
   C8_sub_scores_monotone.2.2 1 5 (by norm_num)⟩

/-- C7 counterexample: a task whose dependency list names itself.  Its
dependency sub-score is 100 although no other task in the context lists it
(the context holds no other task at all), refuting "100 if at least one
other task in the context lists its id as a dependency and 0 otherwise". -/
theorem C7_counterexample_self_dependency :
    calculate_dependency_score selfDepTask [selfDepTask] = 100 ∧
      selfDepTask.dependencies ≠ [] ∧
      [selfDepTask].filter (fun u => u.id ≠ selfDepTask.id) = [] := by
  refine ⟨?_, by simp [selfDepTask], by simp⟩
  simp [calculate_dependency_score, dependent_count, selfDepTask]

/-- C7 as amended: a task with no declared dependencies scores 0 regardless
of the context; a task with dependencies scores 100 when at least one task
of the context (possibly the task itself) lists its id, and 0 when no task
of the context does. -/
theorem C7_dependency_fan_in (task : Task) (ctx : List Task) :
    (task.dependencies = [] → calculate_dependency_score task ctx = 0) ∧
    (task.dependencies ≠ [] →
      ((∃ t ∈ ctx, task.id ∈ t.dependencies) →
          calculate_dependency_score task ctx = 100) ∧
      ((∀ t ∈ ctx, task.id ∉ t.dependencies) →
          calculate_dependency_score task ctx = 0)) := by
  refine ⟨fun h => by simp [calculate_dependency_score, h], fun h => ⟨?_, ?_⟩⟩
  · intro hex
    have hpos : 0 < dependent_count task ctx := by
      simp only [dependent_count, List.countP_pos_iff, decide_eq_true_eq]
      exact hex
    simp [calculate_dependency_score, h, hpos]
  · intro hnone
    have hz : dependent_count task ctx = 0 := by
      simp only [dependent_count, List.countP_eq_zero, decide_eq_true_eq]
      exact hnone
    simp [calculate_dependency_score, h, hz]

/-- C7 witness: both gates of the amended statement evaluated at concrete
inputs: an empty dependency list gives 0 even though another task depends
on the task, and a non-empty one gives 100 when another task does. -/
theorem C7_dependency_fan_in_witness :
    calculate_dependency_score taskA2 ctx2 = 0 ∧
      calculate_dependency_score taskC2 [taskC2, ⟨"8", "D", 1, 2, 5, ["7"]⟩] =
        100 :=
  ⟨(C7_dependency_fan_in taskA2 ctx2).1 (by simp [taskA2]),
   ((C7_dependency_fan_in taskC2 [taskC2, ⟨"8", "D", 1, 2, 5, ["7"]⟩]).2
      (by simp [taskC2])).1
     ⟨⟨"8", "D", 1, 2, 5, ["7"]⟩, by simp [taskC2]⟩⟩

/-- C2: the code evaluated on end-to-end scenario 2 (which is also the
repository's own test `test_priority_calculation_dependencies`): tasks A
and C receive the same score 63, not `score(A) > score(C)` as the spec and
the test require, because the dependency sub-score of A is gated to 0 by
A's empty dependency list; the explanation clause does hold: A's
explanation contains "Blocks 1 other task". -/
theorem C2_scenario2_evaluation :
    calculate_score defaultWeights 0 taskA2 ctx2 = 63 ∧
      calculate_score defaultWeights 0 taskB2 ctx2 = 63 ∧
      calculate_score defaultWeights 0 taskC2 ctx2 = 63 ∧
      generate_explanation 0 taskA2 ctx2 =
        "⏳ Due in 1 days, ⚡ Quick task, 🔑 Blocks 1 other task" ∧
      (∃ s₁ s₂, generate_explanation 0 taskA2 ctx2 =
        s₁ ++ "Blocks 1 other task" ++ s₂) := by
  have hexp : generate_explanation 0 taskA2 ctx2 =
      "⏳ Due in 1 days, ⚡ Quick task, 🔑 Blocks 1 other task" := by decide
  have hdA : calculate_dependency_score ⟨"5", "Task A", 1, 2, 5, []⟩ ctx2 = 0 :=
    by decide
  have hdB : calculate_dependency_score ⟨"6", "Task B", 1, 2, 5, []⟩ ctx2 = 0 :=
    by decide
  have hdC : calculate_dependency_score
      ⟨"7", "Task C (depends on A and B)", 1, 2, 5, ["5", "6"]⟩ ctx2 = 0 :=
    by decide
  refine ⟨?_, ?_, ?_, hexp, ⟨"⏳ Due in 1 days, ⚡ Quick task, 🔑 ", "", by
    rw [hexp]; decide⟩⟩ <;>
    norm_num [calculate_score, calculate_urgency_score, importance_sub_score,
      calculate_effort_score, hdA, hdB, hdC, defaultWeights, pyMin, pyMax,
      taskA2, taskB2, taskC2]

/-- C5: the code evaluated on a database where row "b" depends on row "a".
`delete_task` nevertheless deletes "a": the dependent check
`task_id in (t.dependencies or [])` compares the id string against `TaskDB`
objects and never matches, so the deletion-conflict branch required by the
spec and by the repository's own test (`test_all.py`, test 4) is
unreachable. -/
theorem C5_delete_task_evaluation :
    delete_task [rowA, rowB] "a" = .deleted [rowB] ∧
      "a" ∈ rowB.dependencies := by
  constructor
  · simp [delete_task, rowA, rowB, pyStrEqTaskRow, List.eraseP]
  · simp [rowB]

/-! ## Unfolding equations and basic facts for the DFS -/

theorem dfsNode_zero (c : VCtx) (node : String) (v r : List String) :
    dfsNode c 0 node v r = none := by
  rw [dfsNode]

theorem dfsNode_succ (c : VCtx) (k : Nat) (node : String) (v r : List String) :
    dfsNode c (k + 1) node v r =
      dfsDeps c k node (depsOf c.graph node) (node :: v) (node :: r) := by
  rw [dfsNode]

theorem dfsDeps_nil (c : VCtx) (fuel : Nat) (node : String)
    (v r : List String) :
    dfsDeps c fuel node [] v r = some (.ok (false, v)) := by
  rw [dfsDeps]

theorem dfsDeps_cons_missing (c : VCtx) (fuel : Nat) (node nbr : String)
    (rest : List String) (v r : List String)
    (h : nbr ∉ c.task_ids ∧ nbr ∉ c.dbIds) :
    dfsDeps c fuel node (nbr :: rest) v r = some (.error (node, nbr)) := by
  rw [dfsDeps]
  simp [h.1, h.2]

theorem dfsDeps_cons_new (c : VCtx) (fuel : Nat) (node nbr : String)
    (rest : List String) (v r : List String)
    (h1 : ¬ (nbr ∉ c.task_ids ∧ nbr ∉ c.dbIds)) (h2 : nbr ∉ v) :
    dfsDeps c fuel node (nbr :: rest) v r =
      match dfsNode c fuel nbr v r with
      | none => none
      | some (.error e) => some (.error e)
      | some (.ok (true, v₂)) => some (.ok (true, v₂))
      | some (.ok (false, v₂)) => dfsDeps c fuel node rest v₂ r := by
  rw [dfsDeps]
  simp only [if_neg h1, if_pos h2]

theorem dfsDeps_cons_stack (c : VCtx) (fuel : Nat) (node nbr : String)
    (rest : List String) (v r : List String)
    (h1 : ¬ (nbr ∉ c.task_ids ∧ nbr ∉ c.dbIds)) (h2 : nbr ∈ v) (h3 : nbr ∈ r) :
    dfsDeps c fuel node (nbr :: rest) v r = some (.ok (true, v)) := by
  rw [dfsDeps]
  simp only [if_neg h1]
  rw [if_neg (by simp [h2]), if_pos h3]

theorem dfsDeps_cons_skip (c : VCtx) (fuel : Nat) (node nbr : String)
    (rest : List String) (v r : List String)
    (h1 : ¬ (nbr ∉ c.task_ids ∧ nbr ∉ c.dbIds)) (h2 : nbr ∈ v) (h3 : nbr ∉ r) :
    dfsDeps c fuel node (nbr :: rest) v r = dfsDeps c fuel node rest v r := by
  rw [dfsDeps]
  simp only [if_neg h1]
  rw [if_neg (by simp [h2]), if_neg h3]

/-- Every dependency id of `node` occurs in `nodesList`. -/
theorem depsOf_subset_nodesList (g : List (String × List String))
    (node d : String) (h : d ∈ depsOf g node) : d ∈ nodesList g := by
  unfold depsOf at h
  cases hf : g.reverse.find? (fun p => p.1 == node) with
  | none => rw [hf] at h; simp at h
  | some p =>
      rw [hf] at h
      have hp : p ∈ g := by
        have := List.mem_of_find?_eq_some hf
        simpa using this
      unfold nodesList
      exact List.mem_append_right _ (List.mem_flatMap.mpr ⟨p, hp, h⟩)

/-- A dependency edge comes from an actual entry of the adjacency list. -/
theorem exists_entry_of_mem_depsOf (g : List (String × List String))
    (node d : String) (h : d ∈ depsOf g node) :
    ∃ p ∈ g, p.1 = node ∧ d ∈ p.2 := by
  unfold depsOf at h
  cases hf : g.reverse.find? (fun p => p.1 == node) with
  | none => rw [hf] at h; simp at h
  | some p =>
      rw [hf] at h
      have hp : p ∈ g := by
        have := List.mem_of_find?_eq_some hf
        simpa using this
      have hid : p.1 = node := by
        have := List.find?_some hf
        simpa using this
      exact ⟨p, hp, hid, h⟩

/-- A node with an outgoing dependency edge is a key of the adjacency list. -/
theorem mem_keys_of_depsOf_ne_nil (g : List (String × List String))
    (node d : String) (h : d ∈ depsOf g node) : node ∈ g.map Prod.fst := by
  obtain ⟨p, hp, hid, _⟩ := exists_entry_of_mem_depsOf g node d h
  exact List.mem_map.mpr ⟨p, hp, hid⟩

/-! ## Termination: the chosen fuel always suffices

Each recursive descent of `has_cycle` happens only on a neighbour outside
the `visited` set and immediately inserts it, so the number of nested calls
is bounded by the number of distinct ids occurring in the adjacency
structure. -/

/-- Joint fuel-sufficiency statement for `dfsNode` and `dfsDeps`: with fuel
at least the number of unvisited ids, the DFS returns a result, and a
successful result only ever grows the visited set. -/
theorem dfs_isSome_aux (c : VCtx) : ∀ fuel : Nat,
    (∀ node v r, node ∈ nodesList c.graph → node ∉ v →
      ((nodesList c.graph).toFinset \ v.toFinset).card ≤ fuel →
      ∃ res, dfsNode c fuel node v r = some res ∧
        ∀ b v₂, res = .ok (b, v₂) → v ⊆ v₂) ∧
    (∀ node nbrs v r, (∀ x ∈ nbrs, x ∈ nodesList c.graph) →
      ((nodesList c.graph).toFinset \ v.toFinset).card ≤ fuel →
      ∃ res, dfsDeps c fuel node nbrs v r = some res ∧
        ∀ b v₂, res = .ok (b, v₂) → v ⊆ v₂) := by
  intro fuel
  induction fuel with
  | zero =>
      constructor
      · intro node v r hnode hnv hcard
        exfalso
        have hmem : node ∈ (nodesList c.graph).toFinset \ v.toFinset := by
          simp [Finset.mem_sdiff, List.mem_toFinset, hnode, hnv]
        have := Finset.card_pos.mpr ⟨node, hmem⟩
        omega
      · intro node nbrs v r hn hcard
        induction nbrs generalizing v with
        | nil =>
            refine ⟨.ok (false, v), dfsDeps_nil c 0 node v r, ?_⟩
            rintro b v₂ h
            cases h
            exact fun x hx => hx
        | cons nbr rest ihr =>
            have hnbrv : nbr ∈ v := by
              by_contra hnv
              have hmem : nbr ∈ (nodesList c.graph).toFinset \ v.toFinset := by
                simp [Finset.mem_sdiff, List.mem_toFinset, hnv,
                  hn nbr (List.mem_cons_self nbr rest)]
              have := Finset.card_pos.mpr ⟨nbr, hmem⟩
              omega
            by_cases hmiss : nbr ∉ c.task_ids ∧ nbr ∉ c.dbIds
            · exact ⟨.error (node, nbr),
                dfsDeps_cons_missing c 0 node nbr rest v r hmiss, by
                  rintro b v₂ h; cases h⟩
            · by_cases hstack : nbr ∈ r
              · refine ⟨.ok (true, v),
                  dfsDeps_cons_stack c 0 node nbr rest v r hmiss hnbrv hstack,
                  ?_⟩
                rintro b v₂ h
                cases h
                exact fun x hx => hx
              · rw [dfsDeps_cons_skip c 0 node nbr rest v r hmiss hnbrv hstack]
                exact ihr v (fun x hx => hn x (List.mem_cons_of_mem nbr hx))
                  hcard
  | succ k ih =>
      have hNode : ∀ node v r, node ∈ nodesList c.graph → node ∉ v →
          ((nodesList c.graph).toFinset \ v.toFinset).card ≤ k + 1 →
          ∃ res, dfsNode c (k + 1) node v r = some res ∧
            ∀ b v₂, res = .ok (b, v₂) → v ⊆ v₂ := by
        intro node v r hnode hnv hcard
        rw [dfsNode_succ]
        have hcard2 :
            ((nodesList c.graph).toFinset \ (node :: v).toFinset).card ≤ k := by
          have hmem : node ∈ (nodesList c.graph).toFinset \ v.toFinset := by
            simp [Finset.mem_sdiff, List.mem_toFinset, hnode, hnv]
          rw [List.toFinset_cons, Finset.sdiff_insert,
            Finset.card_erase_of_mem hmem]
          omega
        obtain ⟨res, hres, hgrow⟩ := ih.2 node (depsOf c.graph node)
          (node :: v) (node :: r)
          (fun x hx => depsOf_subset_nodesList c.graph node x hx) hcard2
        refine ⟨res, hres, ?_⟩
        intro b v₂ hok
        exact fun x hx => hgrow b v₂ hok (List.mem_cons_of_mem node hx)
      refine ⟨hNode, ?_⟩
      intro node nbrs v r hn hcard
      induction nbrs generalizing v with
      | nil =>
          refine ⟨.ok (false, v), dfsDeps_nil c (k + 1) node v r, ?_⟩
          rintro b v₂ h
          cases h
          exact fun x hx => hx
      | cons nbr rest ihr =>
          by_cases hmiss : nbr ∉ c.task_ids ∧ nbr ∉ c.dbIds
          · exact ⟨.error (node, nbr),
              dfsDeps_cons_missing c (k + 1) node nbr rest v r hmiss, by
                rintro b v₂ h; cases h⟩
          · by_cases hnv : nbr ∉ v
            · rw [dfsDeps_cons_new c (k + 1) node nbr rest v r hmiss hnv]
              obtain ⟨res₁, hres₁, hgrow₁⟩ := hNode nbr v r
                (hn nbr (List.mem_cons_self nbr rest)) hnv hcard
              rw [hres₁]
              match res₁, hres₁, hgrow₁ with
              | .error e, _, _ => exact ⟨.error e, rfl, by rintro b v₂ h; cases h⟩
              | .ok (true, v₂), _, hgrow₁ =>
                  exact ⟨.ok (true, v₂), rfl, by
                    rintro b v₃ h
                    cases h
                    exact hgrow₁ true v₂ rfl⟩
              | .ok (false, v₂), _, hgrow₁ =>
                  have hsub : v ⊆ v₂ := hgrow₁ false v₂ rfl
                  have hcard₂ :
                      ((nodesList c.graph).toFinset \ v₂.toFinset).card ≤
                        k + 1 := by
                    refine le_trans (Finset.card_le_card ?_) hcard
                    intro x hx
                    rw [Finset.mem_sdiff] at hx ⊢
                    refine ⟨hx.1, fun hxv => hx.2 ?_⟩
                    rw [List.mem_toFinset] at hxv ⊢
                    exact hsub hxv
                  obtain ⟨res₂, hres₂, hgrow₂⟩ := ihr v₂
                    (fun x hx => hn x (List.mem_cons_of_mem nbr hx)) hcard₂
                  refine ⟨res₂, hres₂, ?_⟩
                  intro b v₃ hok
                  exact fun x hx => hgrow₂ b v₃ hok (hsub hx)
            · push_neg at hnv
              by_cases hstack : nbr ∈ r
              · refine ⟨.ok (true, v),
                  dfsDeps_cons_stack c (k + 1) node nbr rest v r hmiss hnv
                    hstack, ?_⟩
                rintro b v₂ h
                cases h
                exact fun x hx => hx
              · rw [dfsDeps_cons_skip c (k + 1) node nbr rest v r hmiss hnv
                  hstack]
                exact ihr v (fun x hx => hn x (List.mem_cons_of_mem nbr hx))
                  hcard

/-- Per-root fuel sufficiency with the fuel used by `validate_tasks`. -/
theorem dfsNode_isSome_of_root (c : VCtx) (root : String)
    (hroot : root ∈ nodesList c.graph) :
    ∃ res, dfsNode c ((nodesList c.graph).dedup.length + 1) root [] [] =
      some res := by
  obtain ⟨res, hres, _⟩ := (dfs_isSome_aux c
    ((nodesList c.graph).dedup.length + 1)).1 root [] [] hroot
    (by simp) (by
      rw [List.toFinset_nil, Finset.sdiff_empty, List.card_toFinset]
      omega)
  exact ⟨res, hres⟩

/-- The outer loop returns a result whenever every root id occurs in the
node list. -/
theorem validateLoop_isSome (c : VCtx) (roots : List String)
    (h : ∀ x ∈ roots, x ∈ nodesList c.graph) :
    (validateLoop c ((nodesList c.graph).dedup.length + 1) roots).isSome := by
  induction roots with
  | nil => simp [validateLoop]
  | cons tid rest ih =>
      obtain ⟨res, hres⟩ := dfsNode_isSome_of_root c tid
        (h tid (List.mem_cons_self tid rest))
      rw [validateLoop, hres]
      match res with
      | .error (n, m) => simp
      | .ok (true, v₂) => simp
      | .ok (false, v₂) =>
          exact ih (fun x hx => h x (List.mem_cons_of_mem tid hx))

/-- C10: `validate_tasks` terminates with a result on every finite task
set, cyclic dependency graphs and self-loops included: each recursive
descent of the DFS strictly grows the visited set inside the finite id
universe, so the fuel `|nodes| + 1` is never exhausted. -/
theorem C10_validate_tasks_total (dbIds : List String)
    (graph : List (String × List String)) :
    (validate_tasks dbIds graph).isSome := by
  unfold validate_tasks
  exact validateLoop_isSome ⟨graph, graph.map Prod.fst, dbIds⟩
    (graph.map Prod.fst)
    (fun x hx => by unfold nodesList; exact List.mem_append_left _ hx)

/-! ## Soundness of the missing-dependency error -/

/-- A missing-dependency error always reports a genuine violation: the
reported neighbour is a dependency of the reported node and resolves
neither in the task set nor in the database. -/
theorem dfs_error_sound (c : VCtx) : ∀ fuel : Nat,
    (∀ node v r n m, dfsNode c fuel node v r = some (.error (n, m)) →
      m ∈ depsOf c.graph n ∧ m ∉ c.task_ids ∧ m ∉ c.dbIds) ∧
    (∀ node nbrs v r n m, (∀ x ∈ nbrs, x ∈ depsOf c.graph node) →
      dfsDeps c fuel node nbrs v r = some (.error (n, m)) →
      m ∈ depsOf c.graph n ∧ m ∉ c.task_ids ∧ m ∉ c.dbIds) := by
  intro fuel
  induction fuel with
  | zero =>
      constructor
      · intro node v r n m h
        rw [dfsNode_zero] at h
        cases h
      · intro node nbrs
        induction nbrs with
        | nil => intro v r n m hsub h; rw [dfsDeps_nil] at h; cases h
        | cons nbr rest ihr =>
            intro v r n m hsub h
            by_cases hmiss : nbr ∉ c.task_ids ∧ nbr ∉ c.dbIds
            · rw [dfsDeps_cons_missing c 0 node nbr rest v r hmiss] at h
              injection h with h
              injection h with h
              injection h with h1 h2
              rw [← h1, ← h2]
              exact ⟨hsub nbr (List.mem_cons_self nbr rest), hmiss⟩
            · by_cases hnv : nbr ∉ v
              · rw [dfsDeps_cons_new c 0 node nbr rest v r hmiss hnv,
                  dfsNode_zero] at h
                cases h
              · push_neg at hnv
                by_cases hstack : nbr ∈ r
                · rw [dfsDeps_cons_stack c 0 node nbr rest v r hmiss hnv
                    hstack] at h
                  cases h
                · rw [dfsDeps_cons_skip c 0 node nbr rest v r hmiss hnv
                    hstack] at h
                  exact ihr v r n m
                    (fun x hx => hsub x (List.mem_cons_of_mem nbr hx)) h
  | succ k ih =>
      have hNode : ∀ node v r n m,
          dfsNode c (k + 1) node v r = some (.error (n, m)) →
          m ∈ depsOf c.graph n ∧ m ∉ c.task_ids ∧ m ∉ c.dbIds := by
        intro node v r n m h
        rw [dfsNode_succ] at h
        exact ih.2 node (depsOf c.graph node) (node :: v) (node :: r) n m
          (fun x hx => hx) h
      refine ⟨hNode, ?_⟩
      intro node nbrs
      induction nbrs with
      | nil => intro v r n m hsub h; rw [dfsDeps_nil] at h; cases h
      | cons nbr rest ihr =>
          intro v r n m hsub h
          by_cases hmiss : nbr ∉ c.task_ids ∧ nbr ∉ c.dbIds
          · rw [dfsDeps_cons_missing c (k + 1) node nbr rest v r hmiss] at h
            injection h with h
            injection h with h
            injection h with h1 h2
            rw [← h1, ← h2]
            exact ⟨hsub nbr (List.mem_cons_self nbr rest), hmiss⟩
          · by_cases hnv : nbr ∉ v
            · rw [dfsDeps_cons_new c (k + 1) node nbr rest v r hmiss hnv] at h
              cases hdn : dfsNode c (k + 1) nbr v r with
              | none => rw [hdn] at h; cases h
              | some res₁ =>
                  rw [hdn] at h
                  match res₁, hdn with
                  | .error (n₁, m₁), hdn =>
                      injection h with h
                      injection h with h
                      injection h with h1 h2
                      rw [h1, h2] at hdn
                      exact hNode nbr v r n m hdn
                  | .ok (true, v₂), _ => cases h
                  | .ok (false, v₂), _ =>
                      exact ihr v₂ r n m (fun x hx =>
                        hsub x (List.mem_cons_of_mem nbr hx)) h
            · push_neg at hnv
              by_cases hstack : nbr ∈ r
              · rw [dfsDeps_cons_stack c (k + 1) node nbr rest v r hmiss hnv
                  hstack] at h
                cases h
              · rw [dfsDeps_cons_skip c (k + 1) node nbr rest v r hmiss hnv
                  hstack] at h
                exact ihr v r n m
                  (fun x hx => hsub x (List.mem_cons_of_mem nbr hx)) h

/-- When the neighbour loop finishes without a cycle or an error, every
neighbour of the list passed the existence check. -/
theorem dfsDeps_ok_false_checked (c : VCtx) (fuel : Nat) (node : String) :
    ∀ nbrs v r v₂, dfsDeps c fuel node nbrs v r = some (.ok (false, v₂)) →
      ∀ x ∈ nbrs, x ∈ c.task_ids ∨ x ∈ c.dbIds := by
  intro nbrs
  induction nbrs with
  | nil => intro v r v₂ h x hx; cases hx
  | cons nbr rest ihr =>
      intro v r v₂ h x hx
      by_cases hmiss : nbr ∉ c.task_ids ∧ nbr ∉ c.dbIds
      · rw [dfsDeps_cons_missing c fuel node nbr rest v r hmiss] at h
        cases h
      · have hpres : nbr ∈ c.task_ids ∨ nbr ∈ c.dbIds := by
          by_contra hc
          push_neg at hc
          exact hmiss ⟨hc.1, hc.2⟩
        rcases List.mem_cons.mp hx with hx | hx
        · cases hx; exact hpres
        · by_cases hnv : nbr ∉ v
          · rw [dfsDeps_cons_new c fuel node nbr rest v r hmiss hnv] at h
            cases hdn : dfsNode c fuel nbr v r with
            | none => rw [hdn] at h; cases h
            | some res₁ =>
                rw [hdn] at h
                match res₁ with
                | .error e => cases h
                | .ok (true, v₃) => cases h
                | .ok (false, v₃) => exact ihr v₃ r v₂ h x hx
          · push_neg at hnv
            by_cases hstack : nbr ∈ r
            · rw [dfsDeps_cons_stack c fuel node nbr rest v r hmiss hnv
                hstack] at h
              cases h
            · rw [dfsDeps_cons_skip c fuel node nbr rest v r hmiss hnv
                hstack] at h
              exact ihr v r v₂ h x hx

/-- When the DFS from a node finishes without a cycle or an error, every
direct dependency of that node passed the existence check. -/
theorem dfsNode_ok_false_checked (c : VCtx) (fuel : Nat) (node : String)
    (v r v₂ : List String)
    (h : dfsNode c fuel node v r = some (.ok (false, v₂))) :
    ∀ x ∈ depsOf c.graph node, x ∈ c.task_ids ∨ x ∈ c.dbIds := by
  cases fuel with
  | zero => rw [dfsNode_zero] at h; cases h
  | succ k =>
      rw [dfsNode_succ] at h
      exact dfsDeps_ok_false_checked c k node (depsOf c.graph node)
        (node :: v) (node :: r) v₂ h

/-! ## Soundness of cycle detection: a `true` verdict exhibits a cycle -/

/-- When `has_cycle` reports a cycle, a cycle genuinely exists and is
reachable from the node the call started at.  The `rec_stack` invariant is
that every stacked node reaches the current node along dependency edges. -/
theorem dfs_true_sound (c : VCtx) : ∀ fuel : Nat,
    (∀ node v r v₂, (∀ x ∈ r, ReachG c.graph x node) →
      dfsNode c fuel node v r = some (.ok (true, v₂)) →
      ∃ a, ReachG c.graph node a ∧ CycAt c.graph a) ∧
    (∀ node nbrs v r v₂, (∀ x ∈ nbrs, x ∈ depsOf c.graph node) →
      (∀ x ∈ r, ReachG c.graph x node) →
      dfsDeps c fuel node nbrs v r = some (.ok (true, v₂)) →
      ∃ a, ReachG c.graph node a ∧ CycAt c.graph a) := by
  intro fuel
  induction fuel with
  | zero =>
      constructor
      · intro node v r v₂ hr h
        rw [dfsNode_zero] at h
        cases h
      · intro node nbrs
        induction nbrs with
        | nil => intro v r v₂ hsub hr h; rw [dfsDeps_nil] at h; cases h
        | cons nbr rest ihr =>
            intro v r v₂ hsub hr h
            by_cases hmiss : nbr ∉ c.task_ids ∧ nbr ∉ c.dbIds
            · rw [dfsDeps_cons_missing c 0 node nbr rest v r hmiss] at h
              cases h
            · by_cases hnv : nbr ∉ v
              · rw [dfsDeps_cons_new c 0 node nbr rest v r hmiss hnv,
                  dfsNode_zero] at h
                cases h
              · push_neg at hnv
                by_cases hstack : nbr ∈ r
                · refine ⟨nbr, Relation.ReflTransGen.single
                    (hsub nbr (List.mem_cons_self nbr rest)), ?_⟩
                  exact Relation.TransGen.tail' (hr nbr hstack)
                    (hsub nbr (List.mem_cons_self nbr rest))
                · rw [dfsDeps_cons_skip c 0 node nbr rest v r hmiss hnv
                    hstack] at h
                  exact ihr v r v₂
                    (fun x hx => hsub x (List.mem_cons_of_mem nbr hx)) hr h
  | succ k ih =>
      have hNode : ∀ node v r v₂, (∀ x ∈ r, ReachG c.graph x node) →
          dfsNode c (k + 1) node v r = some (.ok (true, v₂)) →
          ∃ a, ReachG c.graph node a ∧ CycAt c.graph a := by
        intro node v r v₂ hr h
        rw [dfsNode_succ] at h
        refine ih.2 node (depsOf c.graph node) (node :: v) (node :: r) v₂
          (fun x hx => hx) ?_ h
        intro x hx
        rcases List.mem_cons.mp hx with hx | hx
        · cases hx; exact Relation.ReflTransGen.refl
        · exact hr x hx
      refine ⟨hNode, ?_⟩
      intro node nbrs
      induction nbrs with
      | nil => intro v r v₂ hsub hr h; rw [dfsDeps_nil] at h; cases h
      | cons nbr rest ihr =>
          intro v r v₂ hsub hr h
          have hedge : EdgeG c.graph node nbr :=
            hsub nbr (List.mem_cons_self nbr rest)
          by_cases hmiss : nbr ∉ c.task_ids ∧ nbr ∉ c.dbIds
          · rw [dfsDeps_cons_missing c (k + 1) node nbr rest v r hmiss] at h
            cases h
          · by_cases hnv : nbr ∉ v
            · rw [dfsDeps_cons_new c (k + 1) node nbr rest v r hmiss hnv] at h
              cases hdn : dfsNode c (k + 1) nbr v r with
              | none => rw [hdn] at h; cases h
              | some res₁ =>
                  rw [hdn] at h
                  match res₁, hdn with
                  | .error e, _ => cases h
                  | .ok (true, v₃), hdn =>
                      have hr₂ : ∀ x ∈ r, ReachG c.graph x nbr :=
                        fun x hx => Relation.ReflTransGen.tail (hr x hx) hedge
                      obtain ⟨a, hna, hcyc⟩ := hNode nbr v r v₃ hr₂ hdn
                      exact ⟨a, Relation.ReflTransGen.head hedge hna, hcyc⟩
                  | .ok (false, v₃), _ =>
                      exact ihr v₃ r v₂
                        (fun x hx => hsub x (List.mem_cons_of_mem nbr hx)) hr h
            · push_neg at hnv
              by_cases hstack : nbr ∈ r
              · exact ⟨nbr, Relation.ReflTransGen.single hedge,
                  Relation.TransGen.tail' (hr nbr hstack) hedge⟩
              · rw [dfsDeps_cons_skip c (k + 1) node nbr rest v r hmiss hnv
                  hstack] at h
                exact ihr v r v₂
                  (fun x hx => hsub x (List.mem_cons_of_mem nbr hx)) hr h

/-! ## Completeness of cycle detection: a clean finish certifies acyclicity

The classical white/grey/black invariant: `visited` nodes off the recursion
stack are black — their dependencies are black again, and no cycle passes
through them. -/

/-- Reachability never leaves a dependency-closed set. -/
theorem reach_stays (g : List (String × List String)) (v r : List String)
    (hcl : ∀ u ∈ v, u ∉ r → ∀ w ∈ depsOf g u, w ∈ v ∧ w ∉ r)
    {x y : String} (hx : x ∈ v ∧ x ∉ r) (hr : ReachG g x y) :
    y ∈ v ∧ y ∉ r := by
  induction hr with
  | refl => exact hx
  | tail _ hstep ih => exact hcl _ ih.1 ih.2 _ hstep

/-- Blackening the finished node: once all its dependencies are black, the
invariant transfers from the extended stack to the caller's stack. -/
theorem blacken (g : List (String × List String)) (v₂ r : List String)
    (node : String) (hB : BlackOK g v₂ (node :: r))
    (hdeps : ∀ x ∈ depsOf g node, x ∈ v₂ ∧ x ∉ node :: r)
    (hnode : node ∈ v₂) : BlackOK g v₂ r := by
  have hcl : ∀ u ∈ v₂, u ∉ r → ∀ w ∈ depsOf g u, w ∈ v₂ ∧ w ∉ r := by
    intro u hu hur w hw
    by_cases hun : u = node
    · subst hun
      have := hdeps w hw
      exact ⟨this.1, fun hwr => this.2 (List.mem_cons_of_mem u hwr)⟩
    · have := hB.1 u hu (by simp [hun, hur]) w hw
      exact ⟨this.1, fun hwr => this.2 (List.mem_cons_of_mem node hwr)⟩
  refine ⟨hcl, ?_⟩
  intro u hu hur hcyc
  by_cases hun : u = node
  · subst hun
    obtain ⟨w, hw, hwu⟩ := (Relation.TransGen.head'_iff).mp hcyc
    have hwS : w ∈ v₂ ∧ w ∉ u :: r := hdeps w hw
    have huS : u ∈ v₂ ∧ u ∉ u :: r := by
      refine reach_stays g v₂ (u :: r) ?_ hwS hwu
      intro a ha har b hb
      exact hB.1 a ha har b hb
    exact huS.2 (List.mem_cons_self u r)
  · exact hB.2 u hu (by simp [hun, hur]) hcyc

/-- Joint completeness invariant: a `false` verdict grows the visited set,
keeps the stack visited, preserves the black invariant relative to the
caller's stack, and leaves every processed neighbour visited and
off-stack. -/
theorem dfs_false_complete (c : VCtx) : ∀ fuel : Nat,
    (∀ node v r v₂, r ⊆ v → node ∉ v → BlackOK c.graph v r →
      dfsNode c fuel node v r = some (.ok (false, v₂)) →
      v ⊆ v₂ ∧ node ∈ v₂ ∧ (node :: r) ⊆ v₂ ∧ BlackOK c.graph v₂ r ∧
        node ∉ r) ∧
    (∀ node nbrs v r v₂, (∀ x ∈ nbrs, x ∈ depsOf c.graph node) →
      node ∈ r → r ⊆ v → BlackOK c.graph v r →
      dfsDeps c fuel node nbrs v r = some (.ok (false, v₂)) →
      v ⊆ v₂ ∧ r ⊆ v₂ ∧ BlackOK c.graph v₂ r ∧
        ∀ x ∈ nbrs, x ∈ v₂ ∧ x ∉ r) := by
  intro fuel
  induction fuel with
  | zero =>
      constructor
      · intro node v r v₂ hrv hnv hB h
        rw [dfsNode_zero] at h
        cases h
      · intro node nbrs
        induction nbrs with
        | nil =>
            intro v r v₂ hsub hnr hrv hB h
            rw [dfsDeps_nil] at h
            injection h with h
            injection h with h
            injection h with h1 h2
            subst h2
            exact ⟨fun x hx => hx, hrv, hB, fun x hx => by cases hx⟩
        | cons nbr rest ihr =>
            intro v r v₂ hsub hnr hrv hB h
            by_cases hmiss : nbr ∉ c.task_ids ∧ nbr ∉ c.dbIds
            · rw [dfsDeps_cons_missing c 0 node nbr rest v r hmiss] at h
              cases h
            · by_cases hnv : nbr ∉ v
              · rw [dfsDeps_cons_new c 0 node nbr rest v r hmiss hnv,
                  dfsNode_zero] at h
                cases h
              · push_neg at hnv
                by_cases hstack : nbr ∈ r
                · rw [dfsDeps_cons_stack c 0 node nbr rest v r hmiss hnv
                    hstack] at h
                  cases h
                · rw [dfsDeps_cons_skip c 0 node nbr rest v r hmiss hnv
                    hstack] at h
                  obtain ⟨h1, h2, h3, h4⟩ := ihr v r v₂
                    (fun x hx => hsub x (List.mem_cons_of_mem nbr hx)) hnr hrv
                    hB h
                  refine ⟨h1, h2, h3, ?_⟩
                  intro x hx
                  rcases List.mem_cons.mp hx with hx | hx
                  · cases hx; exact ⟨h1 hnv, hstack⟩
                  · exact h4 x hx
  | succ k ih =>
      have hNode : ∀ node v r v₂, r ⊆ v → node ∉ v → BlackOK c.graph v r →
          dfsNode c (k + 1) node v r = some (.ok (false, v₂)) →
          v ⊆ v₂ ∧ node ∈ v₂ ∧ (node :: r) ⊆ v₂ ∧ BlackOK c.graph v₂ r ∧
            node ∉ r := by
        intro node v r v₂ hrv hnv hB h
        rw [dfsNode_succ] at h
        have hB2 : BlackOK c.graph (node :: v) (node :: r) := by
          constructor
          · intro u hu hur w hw
            have hu' : u ∈ v := by
              rcases List.mem_cons.mp hu with hu | hu
              · exact absurd (List.mem_cons_self u r) (hu ▸ hur)
              · exact hu
            have hur' : u ∉ r := fun hx => hur (List.mem_cons_of_mem node hx)
            obtain ⟨hw1, hw2⟩ := hB.1 u hu' hur' w hw
            refine ⟨List.mem_cons_of_mem node hw1, ?_⟩
            intro hwc
            rcases List.mem_cons.mp hwc with hwc | hwc
            · exact hnv (hwc ▸ hw1)
            · exact hw2 hwc
          · intro u hu hur
            have hu' : u ∈ v := by
              rcases List.mem_cons.mp hu with hu | hu
              · exact absurd (List.mem_cons_self u r) (hu ▸ hur)
              · exact hu
            exact hB.2 u hu' (fun hx => hur (List.mem_cons_of_mem node hx))
        obtain ⟨h1, h2, h3, h4⟩ := ih.2 node (depsOf c.graph node)
          (node :: v) (node :: r) v₂ (fun x hx => hx)
          (List.mem_cons_self node r)
          (fun x hx => by
            rcases List.mem_cons.mp hx with hx | hx
            · exact hx ▸ List.mem_cons_self node v
            · exact List.mem_cons_of_mem node (hrv hx)) hB2 h
        have hnode₂ : node ∈ v₂ := h1 (List.mem_cons_self node v)
        have hnr : node ∉ r := fun hx => hnv (hrv hx)
        refine ⟨fun x hx => h1 (List.mem_cons_of_mem node hx), hnode₂,
          fun x hx => ?_, blacken c.graph v₂ r node h3 h4 hnode₂, hnr⟩
        rcases List.mem_cons.mp hx with hx | hx
        · exact hx ▸ hnode₂
        · exact h1 (List.mem_cons_of_mem node (hrv hx))
      refine ⟨hNode, ?_⟩
      intro node nbrs
      induction nbrs with
      | nil =>
          intro v r v₂ hsub hnr hrv hB h
          rw [dfsDeps_nil] at h
          injection h with h
          injection h with h
          injection h with h1 h2
          subst h2
          exact ⟨fun x hx => hx, hrv, hB, fun x hx => by cases hx⟩
      | cons nbr rest ihr =>
          intro v r v₂ hsub hnr hrv hB h
          by_cases hmiss : nbr ∉ c.task_ids ∧ nbr ∉ c.dbIds
          · rw [dfsDeps_cons_missing c (k + 1) node nbr rest v r hmiss] at h
            cases h
          · by_cases hnv : nbr ∉ v
            · rw [dfsDeps_cons_new c (k + 1) node nbr rest v r hmiss hnv] at h
              cases hdn : dfsNode c (k + 1) nbr v r with
              | none => rw [hdn] at h; cases h
              | some res₁ =>
                  rw [hdn] at h
                  match res₁, hdn with
                  | .error e, _ => cases h
                  | .ok (true, v₃), _ => cases h
                  | .ok (false, v₃), hdn =>
                      obtain ⟨g1, g2, g3, g4, g5⟩ :=
                        hNode nbr v r v₃ hrv hnv hB hdn
                      obtain ⟨h1, h2, h3, h4⟩ := ihr v₃ r v₂
                        (fun x hx => hsub x (List.mem_cons_of_mem nbr hx)) hnr
                        (fun x hx => g1 (hrv hx)) g4 h
                      refine ⟨fun x hx => h1 (g1 hx), h2, h3, ?_⟩
                      intro x hx
                      rcases List.mem_cons.mp hx with hx | hx
                      · cases hx; exact ⟨h1 g2, g5⟩
                      · exact h4 x hx
            · push_neg at hnv
              by_cases hstack : nbr ∈ r
              · rw [dfsDeps_cons_stack c (k + 1) node nbr rest v r hmiss hnv
                  hstack] at h
                cases h
              · rw [dfsDeps_cons_skip c (k + 1) node nbr rest v r hmiss hnv
                  hstack] at h
                obtain ⟨h1, h2, h3, h4⟩ := ihr v r v₂
                  (fun x hx => hsub x (List.mem_cons_of_mem nbr hx)) hnr hrv
                  hB h
                refine ⟨h1, h2, h3, ?_⟩
                intro x hx
                rcases List.mem_cons.mp hx with hx | hx
                · cases hx; exact ⟨h1 hnv, hstack⟩
                · exact h4 x hx

/-! ## Root-level and loop-level consequences -/

/-- A cycle verdict from a root certifies a cycle reachable from it. -/
theorem root_true_cycle (c : VCtx) (fuel : Nat) (root : String)
    (v₂ : List String)
    (h : dfsNode c fuel root [] [] = some (.ok (true, v₂))) :
    CycleReachableFrom c.graph root :=
  (dfs_true_sound c fuel).1 root [] [] v₂ (fun x hx => by cases hx) h

/-- A clean verdict from a root certifies that no cycle is reachable from
it. -/
theorem root_false_no_cycle (c : VCtx) (fuel : Nat) (root : String)
    (v₂ : List String)
    (h : dfsNode c fuel root [] [] = some (.ok (false, v₂))) :
    ¬ CycleReachableFrom c.graph root := by
  obtain ⟨h1, h2, h3, hB, h5⟩ := (dfs_false_complete c fuel).1 root [] [] v₂
    (fun x hx => absurd hx (List.not_mem_nil x)) (List.not_mem_nil root)
    ⟨fun u hu => absurd hu (List.not_mem_nil u),
      fun u hu => absurd hu (List.not_mem_nil u)⟩ h
  rintro ⟨a, hra, hcyc⟩
  have ha : a ∈ v₂ ∧ a ∉ ([] : List String) :=
    reach_stays c.graph v₂ [] hB.1 ⟨h2, by simp⟩ hra
  exact hB.2 a ha.1 ha.2 hcyc

/-- A successful outer loop means every root finished cleanly. -/
theorem loop_ok_elim (c : VCtx) (fuel : Nat) :
    ∀ roots, validateLoop c fuel roots = some .ok →
      ∀ t ∈ roots, ∃ v₂, dfsNode c fuel t [] [] = some (.ok (false, v₂)) := by
  intro roots
  induction roots with
  | nil => intro _ t ht; cases ht
  | cons tid rest ih =>
      intro h t ht
      rw [validateLoop] at h
      cases hdn : dfsNode c fuel tid [] [] with
      | none => rw [hdn] at h; cases h
      | some res =>
          rw [hdn] at h
          match res, hdn with
          | .error (n, m), _ => cases h
          | .ok (true, v₂), _ => cases h
          | .ok (false, v₂), hdn =>
              rcases List.mem_cons.mp ht with ht | ht
              · exact ht ▸ ⟨v₂, hdn⟩
              · exact ih h t ht

/-- Conversely, the outer loop succeeds when every root finishes cleanly. -/
theorem loop_ok_intro (c : VCtx) (fuel : Nat) :
    ∀ roots,
      (∀ t ∈ roots, ∃ v₂, dfsNode c fuel t [] [] = some (.ok (false, v₂))) →
      validateLoop c fuel roots = some .ok := by
  intro roots
  induction roots with
  | nil => intro _; rfl
  | cons tid rest ih =>
      intro h
      obtain ⟨v₂, hdn⟩ := h tid (List.mem_cons_self tid rest)
      rw [validateLoop, hdn]
      exact ih (fun t ht => h t (List.mem_cons_of_mem tid ht))

/-- A circular verdict names the first root (in insertion order) whose DFS
found a cycle; every earlier root finished cleanly. -/
theorem loop_circular_elim (c : VCtx) (fuel : Nat) :
    ∀ roots t, validateLoop c fuel roots = some (.circular t) →
      ∃ l₁ l₂, roots = l₁ ++ t :: l₂ ∧
        (∀ x ∈ l₁, ∃ v₂, dfsNode c fuel x [] [] = some (.ok (false, v₂))) ∧
        ∃ v₂, dfsNode c fuel t [] [] = some (.ok (true, v₂)) := by
  intro roots
  induction roots with
  | nil => intro t h; cases h
  | cons tid rest ih =>
      intro t h
      rw [validateLoop] at h
      cases hdn : dfsNode c fuel tid [] [] with
      | none => rw [hdn] at h; cases h
      | some res =>
          rw [hdn] at h
          match res, hdn with
          | .error (n, m), _ => cases h
          | .ok (true, v₂), hdn =>
              injection h with h
              injection h with h
              subst h
              exact ⟨[], rest, rfl,
                fun x hx => absurd hx (List.not_mem_nil x), v₂, hdn⟩
          | .ok (false, v₂), hdn =>
              obtain ⟨l₁, l₂, hsplit, hclean, hcy⟩ := ih t h
              refine ⟨tid :: l₁, l₂, by rw [hsplit, List.cons_append], ?_,
                hcy⟩
              intro x hx
              rcases List.mem_cons.mp hx with hx | hx
              · exact hx ▸ ⟨v₂, hdn⟩
              · exact hclean x hx

/-- A missing-dependency verdict comes from the DFS of some root. -/
theorem loop_missing_elim (c : VCtx) (fuel : Nat) :
    ∀ roots n m, validateLoop c fuel roots = some (.missingDep n m) →
      ∃ t ∈ roots, dfsNode c fuel t [] [] = some (.error (n, m)) := by
  intro roots
  induction roots with
  | nil => intro n m h; cases h
  | cons tid rest ih =>
      intro n m h
      rw [validateLoop] at h
      cases hdn : dfsNode c fuel tid [] [] with
      | none => rw [hdn] at h; cases h
      | some res =>
          rw [hdn] at h
          match res, hdn with
          | .error (n₁, m₁), hdn =>
              injection h with h
              injection h with h1 h2
              rw [h1, h2] at hdn
              exact ⟨tid, List.mem_cons_self tid rest, hdn⟩
          | .ok (true, v₂), _ => cases h
          | .ok (false, v₂), hdn =>
              obtain ⟨t, ht, hdt⟩ := ih n m h
              exact ⟨t, List.mem_cons_of_mem tid ht, hdt⟩

/-- `validate_tasks` always returns some verdict (shared form of the
termination fact). -/
theorem validate_tasks_eq_some (dbIds : List String)
    (graph : List (String × List String)) :
    ∃ res, validate_tasks dbIds graph = some res := by
  have h := validateLoop_isSome ⟨graph, graph.map Prod.fst, dbIds⟩
    (graph.map Prod.fst)
    (fun x hx => by unfold nodesList; exact List.mem_append_left _ hx)
  unfold validate_tasks
  exact Option.isSome_iff_exists.mp h

/-- C3 counterexample: a task set that does contain a directed cycle
(A ↔ B) but also a missing dependency encountered first by the DFS order;
validation rejects it with a missing-dependency error, not the
circular-dependency error the claim promises for every cyclic set. -/
theorem C3_counterexample_missing_preempts_cycle :
    validate_tasks [] [("X", ["M"]), ("A", ["B"]), ("B", ["A"])] =
        some (.missingDep "X" "M") ∧
      HasCycle [("X", ["M"]), ("A", ["B"]), ("B", ["A"])] := by
  constructor
  · simp [validate_tasks, validateLoop, dfsNode, dfsDeps, nodesList, depsOf]
  · have hAB : EdgeG [("X", ["M"]), ("A", ["B"]), ("B", ["A"])] "A" "B" := by
      unfold EdgeG; decide
    have hBA : EdgeG [("X", ["M"]), ("A", ["B"]), ("B", ["A"])] "B" "A" := by
      unfold EdgeG; decide
    exact ⟨"A", Relation.TransGen.head hAB (Relation.TransGen.single hBA)⟩

/-- C3 as amended: over task sets all of whose dependency targets resolve
(in the set or the repository), validation succeeds exactly on the acyclic
ones; a cyclic set is rejected with a circular-dependency error naming the
first task in insertion order from which a cycle is reachable.  (When a
dependency target is missing, a missing-dependency error can be reported
instead, as the counterexample shows.) -/
theorem C3_cycle_detection (dbIds : List String)
    (g : List (String × List String))
    (hAll : ∀ p ∈ g, ∀ d ∈ p.2, d ∈ g.map Prod.fst ∨ d ∈ dbIds) :
    (validate_tasks dbIds g = some .ok ↔ ¬ HasCycle g) ∧
    (∀ t, validate_tasks dbIds g = some (.circular t) →
        CycleReachableFrom g t ∧
        ∃ l₁ l₂, g.map Prod.fst = l₁ ++ t :: l₂ ∧
          ∀ x ∈ l₁, ¬ CycleReachableFrom g x) ∧
    (HasCycle g → ∃ t, validate_tasks dbIds g = some (.circular t)) := by
  set c : VCtx := ⟨g, g.map Prod.fst, dbIds⟩ with hc
  set F : Nat := (nodesList g).dedup.length + 1 with hF
  have hval : validate_tasks dbIds g = validateLoop c F (g.map Prod.fst) := rfl
  have hAllD : ∀ n d, d ∈ depsOf g n → d ∈ g.map Prod.fst ∨ d ∈ dbIds := by
    intro n d hd
    obtain ⟨p, hp, _, hdp⟩ := exists_entry_of_mem_depsOf g n d hd
    exact hAll p hp d hdp
  have hnomiss : ∀ n m, validate_tasks dbIds g ≠ some (.missingDep n m) := by
    intro n m hcontra
    rw [hval] at hcontra
    obtain ⟨t, _, hdt⟩ := loop_missing_elim c F (g.map Prod.fst) n m hcontra
    obtain ⟨hmem, hti, hdb⟩ := (dfs_error_sound c F).1 t [] [] n m hdt
    rcases hAllD n m hmem with hin | hin
    · exact hti hin
    · exact hdb hin
  have hok_no_cycle : validate_tasks dbIds g = some .ok → ¬ HasCycle g := by
    intro hok
    rintro ⟨a, hcyc⟩
    obtain ⟨w, hw, _⟩ := (Relation.TransGen.head'_iff).mp hcyc
    have haroot : a ∈ g.map Prod.fst := mem_keys_of_depsOf_ne_nil g a w hw
    rw [hval] at hok
    obtain ⟨v₂, hdn⟩ := loop_ok_elim c F (g.map Prod.fst) hok a haroot
    exact root_false_no_cycle c F a v₂ hdn ⟨a, Relation.ReflTransGen.refl, hcyc⟩
  have hcirc : ∀ t, validate_tasks dbIds g = some (.circular t) →
      CycleReachableFrom g t ∧
      ∃ l₁ l₂, g.map Prod.fst = l₁ ++ t :: l₂ ∧
        ∀ x ∈ l₁, ¬ CycleReachableFrom g x := by
    intro t hres
    rw [hval] at hres
    obtain ⟨l₁, l₂, hsplit, hclean, v₂, hdt⟩ :=
      loop_circular_elim c F (g.map Prod.fst) t hres
    refine ⟨root_true_cycle c F t v₂ hdt, l₁, l₂, hsplit, ?_⟩
    intro x hx
    obtain ⟨v₃, hdx⟩ := hclean x hx
    exact root_false_no_cycle c F x v₃ hdx
  have hcyc_circ : HasCycle g →
      ∃ t, validate_tasks dbIds g = some (.circular t) := by
    intro hcy
    obtain ⟨res, hres⟩ := validate_tasks_eq_some dbIds g
    match res with
    | .ok => exact absurd hcy (hok_no_cycle hres)
    | .missingDep n m => exact absurd hres (hnomiss n m)
    | .circular t => exact ⟨t, hres⟩
  refine ⟨⟨hok_no_cycle, ?_⟩, hcirc, hcyc_circ⟩
  intro hnocy
  obtain ⟨res, hres⟩ := validate_tasks_eq_some dbIds g
  match res with
  | .ok => exact hres
  | .missingDep n m => exact absurd hres (hnomiss n m)
  | .circular t =>
      obtain ⟨⟨a, _, hcyc⟩, _⟩ := hcirc t hres
      exact absurd ⟨a, hcyc⟩ hnocy

/-- C3 witness: the amended theorem applied to the two-node mutual
dependency A ↔ B: validation rejects it with a circular error, and the DAG
A → B → C validates successfully. -/
theorem C3_cycle_detection_witness :
    (∃ t, validate_tasks [] [("A", ["B"]), ("B", ["A"])] =
      some (.circular t)) ∧
    validate_tasks [] [("A", ["B"]), ("B", [])] = some .ok := by
  constructor
  · have hAB : EdgeG [("A", ["B"]), ("B", ["A"])] "A" "B" := by unfold EdgeG; decide
    have hBA : EdgeG [("A", ["B"]), ("B", ["A"])] "B" "A" := by unfold EdgeG; decide
    exact (C3_cycle_detection [] [("A", ["B"]), ("B", ["A"])]
      (by decide)).2.2
      ⟨"A", Relation.TransGen.head hAB (Relation.TransGen.single hBA)⟩
  · refine ((C3_cycle_detection [] [("A", ["B"]), ("B", [])]
      (by decide)).1).mpr ?_
    rintro ⟨a, hcyc⟩
    have hstep : ∀ x y : String, EdgeG [("A", ["B"]), ("B", [])] x y →
        x = "A" ∧ y = "B" := by
      intro x y hxy
      obtain ⟨p, hp, hpx, hpy⟩ :=
        exists_entry_of_mem_depsOf [("A", ["B"]), ("B", [])] x y hxy
      rcases List.mem_cons.mp hp with hp | hp
      · subst hp
        exact ⟨hpx.symm, List.mem_singleton.mp hpy⟩
      rcases List.mem_cons.mp hp with hp | hp
      · subst hp
        exact absurd hpy (List.not_mem_nil y)
      · cases hp
    obtain ⟨w, hw, hwa⟩ := (Relation.TransGen.head'_iff).mp hcyc
    obtain ⟨ha, hwv⟩ := hstep a w hw
    subst ha
    subst hwv
    rcases Relation.ReflTransGen.cases_head hwa with h | ⟨z, hz, _⟩
    · exact absurd h (by decide)
    · exact absurd (hstep "B" z hz).1 (by decide)

/-! ## Missing-dependency handling across the endpoints (C4) -/

/-- An empty batch only arises when request and repository are both empty,
in which case the merged context is empty too. -/
theorem analyzeContext_eq_nil (db reqTasks : List Task)
    (h : analyzeBatch db reqTasks = []) : analyzeContext db reqTasks = [] := by
  unfold analyzeContext
  rw [h]
  unfold analyzeBatch at h
  by_cases hreq : reqTasks.isEmpty
  · rw [if_pos hreq] at h
    subst h
    rfl
  · rw [if_neg hreq] at h
    rw [List.isEmpty_iff] at hreq
    exact absurd h hreq

/-- A dependency id surviving the `if dep_task:` filter of `create_task`
resolves in the database. -/
theorem mem_ids_of_filter_find (db : List Task) (deps : List String)
    (d : String)
    (h : d ∈ deps.filter (fun x => (db.find? (fun r => r.id == x)).isSome)) :
    d ∈ db.map Task.id := by
  obtain ⟨hd, hf⟩ := List.mem_filter.mp h
  obtain ⟨r, hr⟩ := Option.isSome_iff_exists.mp hf
  have hrdb : r ∈ db := List.mem_of_find?_eq_some hr
  have hrid : r.id = d := by
    have := List.find?_some hr
    simpa using this
  exact List.mem_map.mpr ⟨r, hrdb, hrid⟩

/-- The validation run by `create_task` always passes: the filtered
dependencies resolve in the database and the fresh id cannot lie on a
cycle of the one-node graph. -/
theorem create_task_validate_ok (dbIds : List String) (newId : String)
    (deps : List String) (hdeps : ∀ d ∈ deps, d ∈ dbIds)
    (hfresh : newId ∉ dbIds) :
    validateTasksRun dbIds [(newId, deps)] = .ok := by
  obtain ⟨res, hres⟩ := validate_tasks_eq_some dbIds [(newId, deps)]
  have hrun : validateTasksRun dbIds [(newId, deps)] = res := by
    unfold validateTasksRun
    rw [hres]
    rfl
  rw [hrun]
  have hstep : ∀ x y : String, EdgeG [(newId, deps)] x y →
      x = newId ∧ y ∈ deps := by
    intro x y hxy
    obtain ⟨p, hp, hpx, hpy⟩ :=
      exists_entry_of_mem_depsOf [(newId, deps)] x y hxy
    rcases List.mem_cons.mp hp with hp | hp
    · subst hp
      exact ⟨hpx.symm, hpy⟩
    · cases hp
  match res, hres with
  | .ok, _ => rfl
  | .missingDep n m, hres =>
      exfalso
      set c : VCtx := ⟨[(newId, deps)], [(newId, deps)].map Prod.fst, dbIds⟩
        with hc
      have hres2 : validateLoop c ((nodesList [(newId, deps)]).dedup.length + 1)
          ([(newId, deps)].map Prod.fst) = some (.missingDep n m) := hres
      obtain ⟨t, _, hdt⟩ := loop_missing_elim c _ _ n m hres2
      obtain ⟨hmem, hti, hdb⟩ := (dfs_error_sound c _).1 t [] [] n m hdt
      exact hdb (hdeps m (hstep n m hmem).2)
  | .circular t, hres =>
      exfalso
      set c : VCtx := ⟨[(newId, deps)], [(newId, deps)].map Prod.fst, dbIds⟩
        with hc
      have hres2 : validateLoop c ((nodesList [(newId, deps)]).dedup.length + 1)
          ([(newId, deps)].map Prod.fst) = some (.circular t) := hres
      obtain ⟨l₁, l₂, _, _, v₂, hdt⟩ := loop_circular_elim c _ _ t hres2
      obtain ⟨a, _, hcyc⟩ := root_true_cycle c _ t v₂ hdt
      obtain ⟨w, hw, hwa⟩ := (Relation.TransGen.head'_iff).mp hcyc
      obtain ⟨ha, hwdeps⟩ := hstep a w hw
      subst ha
      have hwid : w ∈ dbIds := hdeps w hwdeps
      rcases Relation.ReflTransGen.cases_head hwa with h | ⟨z, hz, _⟩
      · exact hfresh (h ▸ hwid)
      · exact hfresh ((hstep w z hz).1 ▸ hwid)

/-- C4 as amended: in batch analysis, a dependency id resolving neither in
the merged context nor in the repository makes the whole request fail with
an error before any task is scored — a missing-dependency error naming a
genuinely offending task and target whenever the dependency graph is
acyclic.  Task creation, however, does not reject: it silently drops every
dependency id that does not resolve in the repository and persists the
task with the surviving dependencies. -/
theorem C4_missing_dependency_handling :
    (∀ (today : Int) (db req : List Task) (w : Option PriorityWeights),
      (∃ n d, d ∈ depsOf (analyzeGraph db req) n ∧
          d ∉ (analyzeGraph db req).map Prod.fst ∧ d ∉ db.map Task.id) →
      (∃ e, analyze_tasks today db req w = .error e) ∧
      (¬ HasCycle (analyzeGraph db req) →
        ∃ n m, analyze_tasks today db req w = .error (.missingDep n m) ∧
          m ∈ depsOf (analyzeGraph db req) n ∧
          m ∉ (analyzeGraph db req).map Prod.fst ∧ m ∉ db.map Task.id)) ∧
    (∀ (db : List Task) (newId : String) (task : Task),
      newId ∉ db.map Task.id →
      create_task db newId task = .ok
        (db ++ [⟨newId, task.title, task.due_date, task.estimated_hours,
          task.importance, task.dependencies.filter
            (fun d => (db.find? (fun r => r.id == d)).isSome)⟩],
        ⟨newId, task.title, task.due_date, task.estimated_hours,
          task.importance, task.dependencies.filter
            (fun d => (db.find? (fun r => r.id == d)).isSome)⟩)) := by
  constructor
  · intro today db req w hmiss
    obtain ⟨n, d, hdep, hnk, hndb⟩ := hmiss
    have hne : (analyzeBatch db req).isEmpty = false := by
      cases hE : (analyzeBatch db req).isEmpty with
      | false => rfl
      | true =>
          exfalso
          have hnil : analyzeBatch db req = [] := by simpa using hE
          have hctx := analyzeContext_eq_nil db req hnil
          have hgnil : analyzeGraph db req = [] := by
            unfold analyzeGraph
            rw [hctx]
            rfl
          rw [hgnil] at hdep
          unfold depsOf at hdep
          simp at hdep
    obtain ⟨res, hres⟩ := validate_tasks_eq_some (db.map (·.id))
      (analyzeGraph db req)
    have hrun : validateTasksRun (db.map (·.id)) (analyzeGraph db req) =
        res := by
      unfold validateTasksRun
      rw [hres]
      rfl
    have hres2 : validateLoop
        ⟨analyzeGraph db req, (analyzeGraph db req).map Prod.fst,
          db.map (·.id)⟩
        ((nodesList (analyzeGraph db req)).dedup.length + 1)
        ((analyzeGraph db req).map Prod.fst) = some res := hres
    match res, hres2, hrun with
    | .ok, hres2, hrun =>
        exfalso
        have hroot : n ∈ (analyzeGraph db req).map Prod.fst :=
          mem_keys_of_depsOf_ne_nil (analyzeGraph db req) n d hdep
        obtain ⟨v₂, hdn⟩ := loop_ok_elim _ _ _ hres2 n hroot
        rcases dfsNode_ok_false_checked _ _ n [] [] v₂ hdn d hdep with h | h
        · exact hnk h
        · exact hndb h
    | .missingDep n₁ m₁, hres2, hrun =>
        have hanalyze : analyze_tasks today db req w =
            .error (.missingDep n₁ m₁) := by
          unfold analyze_tasks
          simp only [hne, Bool.false_eq_true, if_false, hrun]
        obtain ⟨t, _, hdt⟩ := loop_missing_elim _ _ _ n₁ m₁ hres2
        obtain ⟨hmem, hti, hdb⟩ := (dfs_error_sound _ _).1 t [] [] n₁ m₁ hdt
        exact ⟨⟨.missingDep n₁ m₁, hanalyze⟩,
          fun _ => ⟨n₁, m₁, hanalyze, hmem, hti, hdb⟩⟩
    | .circular t, hres2, hrun =>
        have hanalyze : analyze_tasks today db req w =
            .error (.circular t) := by
          unfold analyze_tasks
          simp only [hne, Bool.false_eq_true, if_false, hrun]
        refine ⟨⟨.circular t, hanalyze⟩, fun hnocy => absurd ?_ hnocy⟩
        obtain ⟨l₁, l₂, _, _, v₂, hdt⟩ := loop_circular_elim _ _ _ t hres2
        obtain ⟨a, _, hcyc⟩ := root_true_cycle _ _ t v₂ hdt
        exact ⟨a, hcyc⟩
  · intro db newId task hfresh
    have hok := create_task_validate_ok (db.map (fun x => x.id)) newId
      (task.dependencies.filter
        (fun d => (db.find? (fun r => r.id == d)).isSome))
      (fun d hd => mem_ids_of_filter_find db task.dependencies d hd) hfresh
    simp only [create_task]
    rw [hok]

/-- C4 counterexample: creating a task whose only dependency id resolves
nowhere succeeds instead of being rejected — the id is silently dropped
and the task is stored with no dependencies. -/
theorem C4_counterexample_create_ignores_missing :
    create_task [] "id0" ⟨"ignored", "T", 0, 1, 5, ["x"]⟩ =
      .ok ([⟨"id0", "T", 0, 1, 5, []⟩], ⟨"id0", "T", 0, 1, 5, []⟩) := by
  simp [create_task, validateTasksRun, validate_tasks, validateLoop, dfsNode,
    dfsDeps, nodesList, depsOf]

/-- C4 witness: the batch-analysis half applied to a request whose task
references the unresolvable id "zz" (the request fails), and the creation
half applied to a fresh id over a one-row repository. -/
theorem C4_missing_dependency_handling_witness :
    (∃ e, analyze_tasks 0 [] [⟨"a", "A", 1, 2, 5, ["zz"]⟩] none = .error e) ∧
    create_task [⟨"d", "D", 0, 1, 5, []⟩] "n0" ⟨"x", "T", 0, 1, 5,
        ["d", "zz"]⟩ =
      .ok ([⟨"d", "D", 0, 1, 5, []⟩, ⟨"n0", "T", 0, 1, 5,
          ["d", "zz"].filter (fun d =>
            ([(⟨"d", "D", 0, 1, 5, []⟩ : Task)].find?
              (fun r => r.id == d)).isSome)⟩],
        ⟨"n0", "T", 0, 1, 5, ["d", "zz"].filter (fun d =>
            ([(⟨"d", "D", 0, 1, 5, []⟩ : Task)].find?
              (fun r => r.id == d)).isSome)⟩) :=
  ⟨(C4_missing_dependency_handling.1 0 [] [⟨"a", "A", 1, 2, 5, ["zz"]⟩] none
      ⟨"a", "zz", by decide, by decide, by decide⟩).1,
    C4_missing_dependency_handling.2 [⟨"d", "D", 0, 1, 5, []⟩] "n0"
      ⟨"x", "T", 0, 1, 5, ["d", "zz"]⟩ (by decide)⟩

/-! ## The scoring pass output (C9): permutation, order, stability -/

/-- Stable insertion splits the target list around the inserted element,
passing over exactly the strictly-greater prefix. -/
theorem insertDesc_decompose (x : ScoredTask) (l : List ScoredTask) :
    ∃ l₁ l₂, insertDesc x l = l₁ ++ x :: l₂ ∧ l = l₁ ++ l₂ ∧
      ∀ y ∈ l₁, x.score < y.score := by
  induction l with
  | nil => exact ⟨[], [], rfl, rfl, fun y hy => absurd hy (List.not_mem_nil y)⟩
  | cons y ys ih =>
      by_cases hlt : x.score < y.score
      · obtain ⟨l₁, l₂, h1, h2, h3⟩ := ih
        refine ⟨y :: l₁, l₂, ?_, by rw [List.cons_append, ← h2], ?_⟩
        · rw [insertDesc, if_pos hlt, h1, List.cons_append]
        · intro z hz
          rcases List.mem_cons.mp hz with hz | hz
          · exact hz ▸ hlt
          · exact h3 z hz
      · exact ⟨[], y :: ys, by rw [insertDesc, if_neg hlt]; rfl, rfl,
          fun z hz => absurd hz (List.not_mem_nil z)⟩

/-- Stable insertion permutes the element onto the list. -/
theorem insertDesc_perm (x : ScoredTask) (l : List ScoredTask) :
    (insertDesc x l).Perm (x :: l) := by
  obtain ⟨l₁, l₂, h1, h2, _⟩ := insertDesc_decompose x l
  rw [h1, h2]
  exact List.perm_middle

/-- `sortDesc` permutes its input. -/
theorem sortDesc_perm (l : List ScoredTask) : (sortDesc l).Perm l := by
  induction l with
  | nil => exact List.Perm.refl _
  | cons x xs ih =>
      exact (insertDesc_perm x (sortDesc xs)).trans (ih.cons x)

/-- Stable insertion preserves descending sortedness. -/
theorem insertDesc_sorted (x : ScoredTask) (l : List ScoredTask)
    (h : l.Pairwise (fun a b => b.score ≤ a.score)) :
    (insertDesc x l).Pairwise (fun a b => b.score ≤ a.score) := by
  induction l with
  | nil => simp [insertDesc]
  | cons y ys ih =>
      rw [List.pairwise_cons] at h
      by_cases hlt : x.score < y.score
      · rw [insertDesc, if_pos hlt]
        rw [List.pairwise_cons]
        refine ⟨?_, ih h.2⟩
        intro z hz
        have hz2 : z ∈ x :: ys := (insertDesc_perm x ys).mem_iff.mp hz
        rcases List.mem_cons.mp hz2 with hz2 | hz2
        · exact hz2 ▸ le_of_lt hlt
        · exact h.1 z hz2
      · rw [insertDesc, if_neg hlt]
        push_neg at hlt
        rw [List.pairwise_cons]
        refine ⟨?_, List.pairwise_cons.mpr h⟩
        intro z hz
        rcases List.mem_cons.mp hz with hz | hz
        · exact hz ▸ hlt
        · exact le_trans (h.1 z hz) hlt

/-- `sortDesc` sorts by descending score. -/
theorem sortDesc_sorted (l : List ScoredTask) :
    (sortDesc l).Pairwise (fun a b => b.score ≤ a.score) := by
  induction l with
  | nil => simp [sortDesc]
  | cons x xs ih => exact insertDesc_sorted x (sortDesc xs) ih

/-- `sortDesc` is stable: for every score value, the subsequence of
elements carrying that score is exactly the input's subsequence. -/
theorem sortDesc_stable (s : ℚ) (l : List ScoredTask) :
    (sortDesc l).filter (fun t => decide (t.score = s)) =
      l.filter (fun t => decide (t.score = s)) := by
  induction l with
  | nil => rfl
  | cons x xs ih =>
      obtain ⟨l₁, l₂, h1, h2, h3⟩ := insertDesc_decompose x (sortDesc xs)
      rw [sortDesc, h1, List.filter_append, List.filter_cons]
      by_cases hxs : x.score = s
      · have hl₁ : l₁.filter (fun t => decide (t.score = s)) = [] := by
          rw [List.filter_eq_nil_iff]
          intro y hy
          simp only [decide_eq_true_eq]
          intro hys
          exact absurd (hxs.trans hys.symm) (ne_of_lt (h3 y hy))
        rw [if_pos (by simpa using hxs), hl₁, List.nil_append]
        have hrest : l₂.filter (fun t => decide (t.score = s)) =
            (l₁ ++ l₂).filter (fun t => decide (t.score = s)) := by
          rw [List.filter_append, hl₁, List.nil_append]
        rw [hrest, ← h2, ih, List.filter_cons, if_pos (by simpa using hxs)]
      · rw [if_neg (by simpa using hxs), ← List.filter_append, ← h2, ih,
          List.filter_cons, if_neg (by simpa using hxs)]

/-- C9 counterexample: with an empty request list and a non-empty
repository, `analyze_tasks` scores and returns the persisted task, so the
output is not "exactly the request-supplied tasks" (which are none). -/
theorem C9_counterexample_empty_request :
    analyze_tasks 0 [⟨"d", "D", 5, 3, 5, []⟩] [] none =
      .ok ([⟨⟨"d", "D", 5, 3, 5, []⟩, 51, "No specific factors identified"⟩],
        "default") ∧
    ([⟨⟨"d", "D", 5, 3, 5, []⟩, 51, "No specific factors identified"⟩] :
      List ScoredTask) ≠ [] := by
  refine ⟨?_, by simp⟩
  have hsc : calculate_score defaultWeights 0 ⟨"d", "D", 5, 3, 5, []⟩
      [⟨"d", "D", 5, 3, 5, []⟩] = 51 := by
    norm_num [calculate_score, calculate_urgency_score, importance_sub_score,
      calculate_effort_score, calculate_dependency_score, dependent_count,
      defaultWeights, pyMin, pyMax]
  have hex : generate_explanation 0 ⟨"d", "D", 5, 3, 5, []⟩
      [⟨"d", "D", 5, 3, 5, []⟩] = "No specific factors identified" := by
    decide
  simp [analyze_tasks, analyzeBatch, analyzeContext, analyzeGraph,
    validateTasksRun, validate_tasks, validateLoop, dfsNode, dfsDeps,
    nodesList, depsOf, sortDesc, insertDesc, hsc, hex]

/-- C9 as amended: when the request supplies at least one task, a
successful scoring pass returns exactly the request-supplied tasks, each
with its score and explanation computed against the merged context
(persisted-only tasks are context, not output), sorted by score descending
with ties keeping the relative request order (stability expressed per
score value). -/
theorem C9_scoring_pass_output (today : Int) (db req : List Task)
    (w : Option PriorityWeights) (out : List ScoredTask) (strat : String)
    (hreq : req ≠ [])
    (h : analyze_tasks today db req w = .ok (out, strat)) :
    out.Perm (req.map (fun t =>
      ⟨t, calculate_score (w.getD defaultWeights) today t
        (analyzeContext db req),
        generate_explanation today t (analyzeContext db req)⟩)) ∧
    out.Pairwise (fun a b => b.score ≤ a.score) ∧
    ∀ s : ℚ, out.filter (fun t => decide (t.score = s)) =
      (req.map (fun t =>
        ⟨t, calculate_score (w.getD defaultWeights) today t
          (analyzeContext db req),
          generate_explanation today t (analyzeContext db req)⟩) :
        List ScoredTask).filter (fun t => decide (t.score = s)) := by
  have hreqE : req.isEmpty = false := by
    cases hE : req.isEmpty with
    | false => rfl
    | true => exact absurd (by simpa using hE) hreq
  have hbatch : analyzeBatch db req = req := by
    unfold analyzeBatch
    rw [hreqE]
    rfl
  have hbe : (analyzeBatch db req).isEmpty = false := by rw [hbatch, hreqE]
  obtain ⟨res, hres⟩ := validate_tasks_eq_some (db.map (·.id))
    (analyzeGraph db req)
  have hrun : validateTasksRun (db.map (·.id)) (analyzeGraph db req) =
      res := by
    unfold validateTasksRun
    rw [hres]
    rfl
  match res, hrun with
  | .ok, hrun =>
      have hform : analyze_tasks today db req w =
          .ok (sortDesc (req.map (fun t =>
            ⟨t, calculate_score (w.getD defaultWeights) today t
              (analyzeContext db req),
              generate_explanation today t (analyzeContext db req)⟩)),
            if w.isSome then "custom" else "default") := by
        unfold analyze_tasks
        simp only [hbe, hreqE, Bool.false_eq_true, if_false, hrun, hbatch]
      rw [hform] at h
      injection h with h
      injection h with hout hstrat
      subst hout
      exact ⟨sortDesc_perm _, sortDesc_sorted _, fun s => sortDesc_stable s _⟩
  | .missingDep n m, hrun =>
      exfalso
      have hform : analyze_tasks today db req w =
          .error (.missingDep n m) := by
        unfold analyze_tasks
        simp only [hbe, Bool.false_eq_true, if_false, hrun]
      rw [hform] at h
      cases h
  | .circular t, hrun =>
      exfalso
      have hform : analyze_tasks today db req w = .error (.circular t) := by
        unfold analyze_tasks
        simp only [hbe, Bool.false_eq_true, if_false, hrun]
      rw [hform] at h
      cases h

/-- C9 witness: the amended statement applied to a one-task request over an
empty repository. -/
theorem C9_scoring_pass_output_witness :
    ([⟨⟨"1", "T1", 1, 2, 9, []⟩, 75,
      "⏳ Due in 1 days, ⭐ High importance, ⚡ Quick task"⟩] :
        List ScoredTask).Perm
      ([⟨"1", "T1", 1, 2, 9, []⟩].map (fun t =>
        ⟨t, calculate_score (Option.getD none defaultWeights) 0 t
          (analyzeContext [] [⟨"1", "T1", 1, 2, 9, []⟩]),
          generate_explanation 0 t
            (analyzeContext [] [⟨"1", "T1", 1, 2, 9, []⟩])⟩)) ∧
    ([⟨⟨"1", "T1", 1, 2, 9, []⟩, 75,
      "⏳ Due in 1 days, ⭐ High importance, ⚡ Quick task"⟩] :
        List ScoredTask).Pairwise (fun a b => b.score ≤ a.score) ∧
    ∀ s : ℚ, ([⟨⟨"1", "T1", 1, 2, 9, []⟩, 75,
      "⏳ Due in 1 days, ⭐ High importance, ⚡ Quick task"⟩] :
        List ScoredTask).filter (fun t => decide (t.score = s)) =
      (([⟨"1", "T1", 1, 2, 9, []⟩].map (fun t =>
        ⟨t, calculate_score (Option.getD none defaultWeights) 0 t
          (analyzeContext [] [⟨"1", "T1", 1, 2, 9, []⟩]),
          generate_explanation 0 t
            (analyzeContext [] [⟨"1", "T1", 1, 2, 9, []⟩])⟩)) :
        List ScoredTask).filter (fun t => decide (t.score = s)) := by
  have hsc : calculate_score defaultWeights 0 ⟨"1", "T1", 1, 2, 9, []⟩
      [⟨"1", "T1", 1, 2, 9, []⟩] = 75 := by
    norm_num [calculate_score, calculate_urgency_score, importance_sub_score,
      calculate_effort_score, calculate_dependency_score, dependent_count,
      defaultWeights, pyMin, pyMax]
  have hex : generate_explanation 0 ⟨"1", "T1", 1, 2, 9, []⟩
      [⟨"1", "T1", 1, 2, 9, []⟩] =
      "⏳ Due in 1 days, ⭐ High importance, ⚡ Quick task" := by decide
  exact C9_scoring_pass_output 0 [] [⟨"1", "T1", 1, 2, 9, []⟩] none
    [⟨⟨"1", "T1", 1, 2, 9, []⟩, 75,
      "⏳ Due in 1 days, ⭐ High importance, ⚡ Quick task"⟩] "default"
    (by simp)
    (by simp [analyze_tasks, analyzeBatch, analyzeContext, analyzeGraph,
      validateTasksRun, validate_tasks, validateLoop, dfsNode, dfsDeps,
      nodesList, depsOf, sortDesc, insertDesc, hsc, hex])

end STA
